import Mathlib

/-!
Verification of the clip review tool (`review.py`) against its natural-language
specification.

The Python source is shallowly embedded in Lean:

* `Clip` mirrors the `Clip` class (one reviewable unit).
* The filesystem is a `Finset String` of existing paths; `os.remove` becomes
  `osRemove`, which fails (`none`, modelling the uncaught `OSError`) when the
  path is absent.
* `Model.delete_marked_clips` becomes `delete_marked_clips`.
* `find_clips` and its helpers (`find_file_pathes`, `get_file_name_base`,
  `os.path.basename`, Python `sorted`) are embedded over lists of paths;
  a directory tree is represented by the list of file paths it contains.
* The curses view controller becomes the state record `VC` with a step
  function `step` over dispatch events (one `handle_input` call with the
  accumulated buffer and the enter flag, or one idle-tick `update` call).
  Fallible Python operations (list indexing, file removal) return `Option`.

String operations are re-implemented structurally over `String.data`
(`basename`, `pyEndsWith`, ...) so that every definition evaluates by kernel
reduction; they coincide with Python's code-point-wise string semantics.
-/

namespace Review

/-- One reviewable unit, mirroring the fields set up in `Clip.__init__`. -/
structure Clip where
  mov_file_path : String
  mts_file_path : String
  mov_file_size : Nat
  file_base_name : String
  played : Bool
  marked_for_del : Bool
deriving DecidableEq, Repr

/-- `os.remove(p)`: removes path `p` from the filesystem; raises (modelled as
`none`) when the path does not exist. -/
def osRemove (fs : Finset String) (p : String) : Option (Finset String) :=
  if p ∈ fs then some (fs.erase p) else none

/-- The loop body of `Model.delete_marked_clips`: for each clip of `toDel`
(in order) remove its `.mov` file, then its `.MTS` file, then remove the first
occurrence of the clip from the clip list (Python `list.remove`). -/
def deleteMarkedLoop : List Clip → Finset String → List Clip →
    Option (Finset String × List Clip)
  | [], fs, clips => some (fs, clips)
  | c :: rest, fs, clips =>
    match osRemove fs c.mov_file_path with
    | none => none
    | some fs1 =>
      match osRemove fs1 c.mts_file_path with
      | none => none
      | some fs2 => deleteMarkedLoop rest fs2 (clips.erase c)

/-- `Model.delete_marked_clips`: first collects `to_del`, the clips whose
`marked_for_del` flag is set, then runs the deletion loop over them. -/
def delete_marked_clips (fs : Finset String) (clips : List Clip) :
    Option (Finset String × List Clip) :=
  deleteMarkedLoop (clips.filter (fun c => c.marked_for_del)) fs clips

/-- Python string slicing `text[:k]` where `k` may be negative (a negative
bound counts from the end of the string). -/
def pyTake (s : String) (k : Int) : String :=
  if 0 ≤ k then s.take k.toNat else s.take ((s.length : Int) + k).toNat

/-- `CursesViewController.__trunc_text(text, length)`: `limit` is the
available width (clamped by the screen width `cols`); text that fits is
returned unchanged; otherwise, when `len(text) >= 3`, the code returns
`text[:limit-3] + "..."`, else a run of dots of length `limit`. -/
def trunc_text (cols : Nat) (text : String) (length : Int) : String :=
  let limit : Int := max 0 (min (cols : Int) length)
  if (text.length : Int) ≤ limit then text
  else if 3 ≤ text.length then pyTake text (limit - 3) ++ "..."
  else String.mk (List.replicate limit.toNat '.')

/-- Code-point comparison of char lists: Python's `<=` on strings. -/
def charsLe : List Char → List Char → Bool
  | [], _ => true
  | _ :: _, [] => false
  | a :: as, b :: bs => if a < b then true else if b < a then false else charsLe as bs

/-- Python string `<=` (code-point lexicographic). -/
def strLe (a b : String) : Bool := charsLe a.data b.data

/-- Python `sorted` on a list of strings. `sorted` is a stable sort, but on
strings equal elements are identical, so the sorted permutation is unique and
any correct sort models it; we use insertion sort. -/
def pySorted (l : List String) : List String :=
  List.insertionSort (fun a b => strLe a b = true) l

/-- `os.path.basename`: the part of the path after the last `/`. -/
def basename (p : String) : String :=
  String.mk ((p.data.reverse.takeWhile (fun c => c ≠ '/')).reverse)

/-- `get_file_name_base(file_path, ending)`:
`os.path.basename(file_path)[:-len(ending)]`. -/
def get_file_name_base (p : String) (ending : String) : String :=
  String.mk ((basename p).data.take ((basename p).data.length - ending.data.length))

/-- Python `str.endswith`. -/
def pyEndsWith (s e : String) : Bool :=
  decide (e.data = s.data.drop (s.data.length - e.data.length))

def MTS_FILE_ENDING : String := ".MTS"

def MOV_FILE_ENDING : String := ".mov"

/-- `find_file_pathes(directory, ending)`: all files of the directory tree
(represented by the list of file paths it contains, in walk order) whose path
ends with `ending`. -/
def find_file_pathes (dir_files : List String) (ending : String) : List String :=
  dir_files.filter (fun p => pyEndsWith p ending)

/-- The dictionary `mts_files` built in `find_clips`, as a lookup function:
base name -> path of the last `.MTS` file with that base (later dict
insertions overwrite earlier ones). -/
def mtsLookup (mts_file_pathes : List String) (base : String) : Option String :=
  mts_file_pathes.reverse.find?
    (fun fp => get_file_name_base fp MTS_FILE_ENDING == base)

/-- `Clip.__init__` for a freshly discovered clip. -/
def Clip.make (mov_fp mts_fp : String) (mov_size : Nat) : Clip :=
  ⟨mov_fp, mts_fp, mov_size, get_file_name_base mov_fp MOV_FILE_ENDING,
    false, false⟩

/-- The `for mov_fp in sorted(mov_file_pathes)` loop of `find_clips`:
produces the clip list and the list of `.mov` paths reported as having no
`.MTS` counterpart. -/
def findClipsLoop (mts_file_pathes : List String) (size : String → Nat) :
    List String → List Clip × List String
  | [] => ([], [])
  | mov_fp :: rest =>
    let out := findClipsLoop mts_file_pathes size rest
    match mtsLookup mts_file_pathes (get_file_name_base mov_fp MOV_FILE_ENDING) with
    | some mts_fp => (Clip.make mov_fp mts_fp (size mov_fp) :: out.1, out.2)
    | none => (out.1, mov_fp :: out.2)

/-- `find_clips(mts_dir, mov_dir)`: pairs preview files with raw files by
file-name base. First component: the clip list; second component: the `.mov`
paths for which "Could not find MTS clip" is printed. -/
def find_clips (mts_dir_files mov_dir_files : List String)
    (size : String → Nat) : List Clip × List String :=
  findClipsLoop (find_file_pathes mts_dir_files MTS_FILE_ENDING) size
    (pySorted (find_file_pathes mov_dir_files MOV_FILE_ENDING))

/-- Python `str.startswith`. -/
def pyStartsWith (s pre : String) : Bool := pre.data.isPrefixOf s.data

/-- The two UI modes (`NormalMode` / `PlayMode`). The play-mode process
handle is external; it is observed only through tick events. -/
inductive Mode where
  | normal
  | play
deriving DecidableEq, Repr

/-- One dispatch of the controller loop: either a call of the active mode's
`handle_input` with the accumulated input buffer and the enter flag, or an
idle-tick call of `update`, reporting whether the player process has exited
(`p.poll() is not None`). -/
inductive Event where
  | input (in_buf : String) (enter : Bool)
  | tick (playerExited : Bool)
deriving DecidableEq, Repr

/-- The mutable state of `CursesViewController`, together with the model it
owns (`clips`) and the filesystem it acts on. `cursor_line` and `top_v_line`
are Python ints. -/
structure VC where
  clips : List Clip
  fs : Finset String
  read_only : Bool
  exit : Bool
  msg : Option String
  cursor_line : Int
  top_v_line : Int
  rows : Int
  mode : Mode
deriving DecidableEq

/-- Python list indexing `l[i]` for a list of length `n`: negative indices
count from the end; an out-of-range index raises `IndexError` (`none`). -/
def pyIdx (n : Nat) (i : Int) : Option Nat :=
  if 0 ≤ i then (if i < (n : Int) then some i.toNat else none)
  else (if 0 ≤ i + (n : Int) then some (i + (n : Int)).toNat else none)

/-- `self.rows_editor`, as set in `reset_editor`. -/
def rows_editor (vc : VC) : Int := vc.rows - 2

/-- `CursesViewController.move_cursor_line(inc)`. The scroll computation
uses `self.rows - 3`, which equals `rows_editor - 1`. -/
def move_cursor_line (vc : VC) (inc : Int) : VC :=
  let cursor := max 0 (min ((vc.clips.length : Int) - 1) (vc.cursor_line + inc))
  let lines_below := (cursor - vc.top_v_line) - (vc.rows - 3)
  let lines_above := vc.top_v_line - cursor
  let top :=
    if 0 < lines_below then vc.top_v_line + lines_below
    else if 0 < lines_above then vc.top_v_line - lines_above
    else vc.top_v_line
  { vc with cursor_line := cursor, top_v_line := top }

/-- `move_cursor_line_all_up` (key `g`). -/
def move_cursor_line_all_up (vc : VC) : VC :=
  { vc with cursor_line := 0, top_v_line := 0 }

/-- `move_cursor_line_all_down` (key `G`). -/
def move_cursor_line_all_down (vc : VC) : VC :=
  let cursor := (vc.clips.length : Int) - 1
  { vc with cursor_line := cursor,
            top_v_line := max 0 (cursor - (rows_editor vc - 1)) }

/-- `play_at_cursor_line`: reads the clip under the cursor (raising on an
invalid index), marks it played and spawns the player process. -/
def play_at_cursor_line (vc : VC) : Option VC :=
  match pyIdx vc.clips.length vc.cursor_line with
  | none => none
  | some i =>
    match vc.clips[i]? with
    | none => none
    | some c => some { vc with clips := vc.clips.set i { c with played := true } }

/-- `toggle_del_at_cursor_line` (key `d`): silently returns in a read-only
session, otherwise flips the mark of the clip under the cursor. -/
def toggle_del_at_cursor_line (vc : VC) : Option VC :=
  if vc.read_only then some vc
  else
    match pyIdx vc.clips.length vc.cursor_line with
    | none => none
    | some i =>
      match vc.clips[i]? with
      | none => none
      | some c =>
        some { vc with
          clips := vc.clips.set i { c with marked_for_del := !c.marked_for_del } }

/-- `set_msg`. -/
def set_msg (vc : VC) (m : String) : VC := { vc with msg := some m }

/-- `switch_mode`. -/
def switch_mode (vc : VC) (m : Mode) : VC := { vc with mode := m }

/-- `exit_no_save_forced` (`:q!`, `:cq`). -/
def exit_no_save_forced (vc : VC) : VC := { vc with exit := true }

/-- `exit_no_save` (`:q`): refuses to exit while any clip is marked. -/
def exit_no_save (vc : VC) : VC :=
  if vc.clips.any (fun c => c.marked_for_del) then
    { vc with msg := some "There are unsaved changes. Use :q! to force exit" }
  else { vc with exit := true }

/-- The state-relevant part of `reset` / `reset_editor`: clamps the cursor
and the top viewport line into the (possibly shrunk) clip list. -/
def reset_editor (vc : VC) : VC :=
  { vc with
    cursor_line := max 0 (min ((vc.clips.length : Int) - 1) vc.cursor_line),
    top_v_line := max 0 (min ((vc.clips.length : Int) - 1) vc.top_v_line) }

/-- `save` (`:w`): an immediate no-op in a read-only session; otherwise
commits the deletions (a failing file deletion raises, modelled as `none`),
sets the exit flag when the list became empty, and resets the view. -/
def save (vc : VC) : Option VC :=
  if vc.read_only then some vc
  else
    match delete_marked_clips vc.fs vc.clips with
    | none => none
    | some out =>
      some (reset_editor
        { vc with
            fs := out.1
            clips := out.2
            exit := if out.2.length = 0 then true else vc.exit })

/-- `NormalMode.handle_input`: a `:`-command is dispatched only when enter is
pressed (an incomplete command leaves the state unchanged and the buffer
uncleared); otherwise the single-key bindings apply. -/
def normalHandle (vc : VC) (in_buf : String) (enter : Bool) : Option VC :=
  if pyStartsWith in_buf ":" then
    if enter then
      if in_buf == ":w" then save vc
      else if in_buf == ":wq" then (save vc).map exit_no_save
      else if in_buf == ":q" then some (exit_no_save vc)
      else if in_buf == ":q!" || in_buf == ":cq" then
        some (exit_no_save_forced vc)
      else some (set_msg vc ("Unknown command: " ++ in_buf))
    else some vc
  else if in_buf == "j" then some (move_cursor_line vc 1)
  else if in_buf == "k" then some (move_cursor_line vc (-1))
  else if in_buf == "g" then some (move_cursor_line_all_up vc)
  else if in_buf == "G" then some (move_cursor_line_all_down vc)
  else if in_buf == "l" then some (move_cursor_line vc (rows_editor vc - 1))
  else if in_buf == "h" then some (move_cursor_line vc (-(rows_editor vc - 1)))
  else if in_buf == " " then
    (play_at_cursor_line vc).map (fun v => switch_mode v .play)
  else if in_buf == "d" then toggle_del_at_cursor_line vc
  else some vc

/-- `PlayMode.handle_input`: space kills the player process and returns to
normal mode; all other input is ignored. -/
def playHandle (vc : VC) (in_buf : String) : VC :=
  if in_buf == " " then switch_mode vc .normal else vc

/-- `PlayMode.update`: polls the player process; once it has exited, switch
back to normal mode. -/
def playUpdate (vc : VC) (playerExited : Bool) : VC :=
  if playerExited then switch_mode vc .normal else vc

/-- One controller dispatch: `handle_input` of the active mode for an input
event, `update` for an idle tick (`NormalMode.update` is `pass`). -/
def step (vc : VC) (e : Event) : Option VC :=
  match vc.mode, e with
  | .normal, .input b enter => normalHandle vc b enter
  | .normal, .tick _ => some vc
  | .play, .input b _ => some (playHandle vc b)
  | .play, .tick ex => some (playUpdate vc ex)

/-- A finite sequence of dispatches. -/
def steps (vc : VC) : List Event → Option VC
  | [] => some vc
  | e :: rest =>
    match step vc e with
    | none => none
    | some vc' => steps vc' rest

/-- A sample marked clip. -/
def clipA : Clip := ⟨"am", "ar", 1, "a", false, true⟩

/-- A sample unmarked clip. -/
def clipB : Clip := ⟨"bm", "br", 2, "b", false, false⟩

/-- A sample writable session state in normal mode. -/
def vcSample : VC :=
  ⟨[clipA, clipB], {"am", "ar", "bm", "br"}, false, false, none, 0, 0, 10, .normal⟩

/-- The sample session, read-only. -/
def vcSampleRO : VC := { vcSample with read_only := true }

/-- A writable sample session in which every clip is marked. -/
def vcAllMarked : VC :=
  ⟨[clipA], {"am", "ar"}, false, false, none, 0, 0, 10, .normal⟩

/-- The state after `:w` on `vcAllMarked`. -/
def vcAllMarkedSaved : VC :=
  ⟨[], ({"am", "ar"} : Finset String).erase "am" |>.erase "ar",
    false, true, none, 0, 0, 10, .normal⟩

/-- The sample session after playing the clip under the cursor. -/
def vcSamplePlayed : VC :=
  { vcSample with
      clips := [{ clipA with played := true }, clipB]
      mode := Mode.play }

/-- Forget the `played` flag — the only clip field a read-only session may
change. -/
def stripPlayed (c : Clip) : Clip := { c with played := false }

/-- The read-only sample session after playing the first clip and moving the
cursor down once. -/
def vcROQuiet : VC :=
  { vcSampleRO with
      clips := [{ clipA with played := true }, clipB]
      cursor_line := 1 }

/-- The cursor at line `c` is visible in a viewport of `vr` rows whose top
line is `t`. -/
def validTop (vr t c : Int) : Prop := 0 ≤ t ∧ t ≤ c ∧ c ≤ t + vr - 1

/-- The cursor/viewport invariant maintained by the cursor moves: the cursor
stays inside the list, the cursor is visible, and the top line stays inside
the band of tops reachable by scrolling. -/
def navInv (vc : VC) : Prop :=
  0 ≤ vc.cursor_line ∧ vc.cursor_line ≤ (vc.clips.length : Int) - 1 ∧
  vc.top_v_line ≤ vc.cursor_line ∧
  vc.cursor_line ≤ vc.top_v_line + rows_editor vc - 1 ∧
  0 ≤ vc.top_v_line ∧
  vc.top_v_line ≤ max 0 ((vc.clips.length : Int) - rows_editor vc)

/-- The top line was adjusted minimally from its previous value `t0` to make
the new cursor line visible: it is valid, unchanged whenever `t0` was already
valid, and when it did move it moved to the valid value nearest `t0`. -/
def minimalAdjust (vr t0 : Int) (vc' : VC) : Prop :=
  validTop vr vc'.top_v_line vc'.cursor_line ∧
  (validTop vr t0 vc'.cursor_line → vc'.top_v_line = t0) ∧
  (t0 < vc'.top_v_line →
    ∀ t, validTop vr t vc'.cursor_line → vc'.top_v_line ≤ t) ∧
  (vc'.top_v_line < t0 →
    ∀ t, validTop vr t vc'.cursor_line → t ≤ vc'.top_v_line)

/-- The cursor-move keys of normal mode. -/
def moveKeys : List String := ["j", "k", "g", "G", "l", "h"]

/-- The cursor move bound to each key in `NormalMode.handle_input`. -/
def applyMoveKey (vc : VC) (m : String) : VC :=
  if m = "j" then move_cursor_line vc 1
  else if m = "k" then move_cursor_line vc (-1)
  else if m = "g" then move_cursor_line_all_up vc
  else if m = "G" then move_cursor_line_all_down vc
  else if m = "l" then move_cursor_line vc (rows_editor vc - 1)
  else move_cursor_line vc (-(rows_editor vc - 1))

/-- Folding `List.erase` over a list of elements none of which equals the head
leaves the head in place. -/
theorem foldl_erase_cons_of_ne {α : Type} [DecidableEq α] (ds : List α) (c : α)
    (l : List α) (h : ∀ d ∈ ds, d ≠ c) :
    ds.foldl (fun acc d => acc.erase d) (c :: l)
      = c :: ds.foldl (fun acc d => acc.erase d) l := by
  induction ds generalizing l with
  | nil => rfl
  | cons d rest ih =>
    have hdc : d ≠ c := h d (by simp)
    simp only [List.foldl_cons]
    rw [List.erase_cons_tail (by simpa using fun hh => hdc hh.symm)]
    exact ih _ (fun d hd => h d (by simp [hd]))

/-- Erasing, one by one, the elements satisfying `p` from a list leaves
exactly the elements not satisfying `p`, in order. -/
theorem foldl_erase_filter {α : Type} [DecidableEq α] (p : α → Bool)
    (l : List α) :
    (l.filter p).foldl (fun acc d => acc.erase d) l
      = l.filter (fun d => !p d) := by
  induction l with
  | nil => rfl
  | cons c rest ih =>
    by_cases hp : p c = true
    · rw [List.filter_cons_of_pos hp, List.foldl_cons, List.erase_cons_head,
        ih, List.filter_cons_of_neg (by simp [hp])]
    · have hp' : p c = false := by simpa using hp
      rw [List.filter_cons_of_neg (by simp [hp']),
        foldl_erase_cons_of_ne _ _ _ (fun d hd => ?_), ih,
        List.filter_cons_of_pos (by simp [hp'])]
      intro hdc
      subst hdc
      exact hp (List.of_mem_filter hd)

/-- In a successful run of the deletion loop, the final clip list is the
original one with the `toDel` clips erased in order. -/
theorem deleteMarkedLoop_clips {toDel : List Clip} {fs fs' : Finset String}
    {clips clips' : List Clip}
    (h : deleteMarkedLoop toDel fs clips = some (fs', clips')) :
    clips' = toDel.foldl (fun acc d => acc.erase d) clips := by
  induction toDel generalizing fs clips with
  | nil =>
    simp only [deleteMarkedLoop, Option.some.injEq, Prod.mk.injEq] at h
    simp [h.2]
  | cons c rest ih =>
    simp only [deleteMarkedLoop] at h
    cases h1 : osRemove fs c.mov_file_path with
    | none => simp only [h1] at h; cases h
    | some fs1 =>
      simp only [h1] at h
      cases h2 : osRemove fs1 c.mts_file_path with
      | none => simp only [h2] at h; cases h
      | some fs2 =>
        simp only [h2] at h
        simpa using ih h

/-- A successful `osRemove` removes the path and nothing else. -/
theorem osRemove_spec {fs fs' : Finset String} {p : String}
    (h : osRemove fs p = some fs') :
    fs' = fs.erase p ∧ p ∉ fs' ∧ fs' ⊆ fs := by
  unfold osRemove at h
  by_cases hp : p ∈ fs
  · rw [if_pos hp] at h
    cases h
    exact ⟨rfl, Finset.not_mem_erase _ _, Finset.erase_subset _ _⟩
  · rw [if_neg hp] at h
    exact absurd h (by simp)

/-- In a successful run of the deletion loop, the final filesystem is a subset
of the initial one, both files of every deleted clip are gone, and every path
distinct from all deleted files survives. -/
theorem deleteMarkedLoop_fs {toDel : List Clip} {fs fs' : Finset String}
    {clips clips' : List Clip}
    (h : deleteMarkedLoop toDel fs clips = some (fs', clips')) :
    fs' ⊆ fs ∧
    (∀ c ∈ toDel, c.mov_file_path ∉ fs' ∧ c.mts_file_path ∉ fs') ∧
    (∀ p ∈ fs, (∀ c ∈ toDel, p ≠ c.mov_file_path ∧ p ≠ c.mts_file_path) →
      p ∈ fs') := by
  induction toDel generalizing fs clips with
  | nil =>
    simp only [deleteMarkedLoop, Option.some.injEq, Prod.mk.injEq] at h
    refine ⟨by simp [h.1], by simp, fun p hp _ => by rwa [← h.1]⟩
  | cons c rest ih =>
    simp only [deleteMarkedLoop] at h
    cases h1 : osRemove fs c.mov_file_path with
    | none => simp only [h1] at h; cases h
    | some fs1 =>
      simp only [h1] at h
      cases h2 : osRemove fs1 c.mts_file_path with
      | none => simp only [h2] at h; cases h
      | some fs2 =>
        simp only [h2] at h
        obtain ⟨he1, hm1, hs1⟩ := osRemove_spec h1
        obtain ⟨he2, hm2, hs2⟩ := osRemove_spec h2
        obtain ⟨ihs, ihdel, ihkeep⟩ := ih h
        refine ⟨ihs.trans (hs2.trans hs1), ?_, ?_⟩
        · intro d hd
          rcases List.mem_cons.mp hd with hd | hd
          · subst hd
            exact ⟨fun hmem => hm1 (hs2 (ihs hmem)), fun hmem => hm2 (ihs hmem)⟩
          · exact ihdel d hd
        · intro p hp hne
          have hp1 : p ∈ fs1 := by
            rw [he1]
            exact Finset.mem_erase.mpr ⟨(hne c (by simp)).1, hp⟩
          have hp2 : p ∈ fs2 := by
            rw [he2]
            exact Finset.mem_erase.mpr ⟨(hne c (by simp)).2, hp1⟩
          exact ihkeep p hp2 (fun d hd => hne d (by simp [hd]))

/-- **C1.** For every model state in which the per-clip file deletions succeed
(`delete_marked_clips` returns `some`), exactly the marked clips are removed
from the list (the unmarked ones survive unchanged, in their original
relative order), both files of every marked clip are removed from disk, every
other file survives, and no clip in the resulting list is marked. -/
theorem delete_marked_clips_correct (fs fs' : Finset String)
    (clips clips' : List Clip)
    (h : delete_marked_clips fs clips = some (fs', clips')) :
    clips' = clips.filter (fun c => !c.marked_for_del) ∧
    (∀ c ∈ clips', c.marked_for_del = false) ∧
    (∀ c ∈ clips, c.marked_for_del = true →
      c.mov_file_path ∉ fs' ∧ c.mts_file_path ∉ fs') ∧
    fs' ⊆ fs ∧
    (∀ p ∈ fs, (∀ c ∈ clips, c.marked_for_del = true →
      p ≠ c.mov_file_path ∧ p ≠ c.mts_file_path) → p ∈ fs') := by
  unfold delete_marked_clips at h
  have hclips := deleteMarkedLoop_clips h
  have hfs := deleteMarkedLoop_fs h
  have hfilter := foldl_erase_filter (fun c : Clip => c.marked_for_del) clips
  rw [hfilter] at hclips
  refine ⟨hclips, ?_, ?_, hfs.1, ?_⟩
  · intro c hc
    rw [hclips] at hc
    simpa using (List.of_mem_filter hc)
  · intro c hc hm
    exact hfs.2.1 c (List.mem_filter.mpr ⟨hc, hm⟩)
  · intro p hp hne
    exact hfs.2.2 p hp (fun c hc => hne c (List.mem_filter.mp hc).1
      (List.mem_filter.mp hc).2)

/-- Concrete instantiation of `delete_marked_clips_correct`: two clips, the
first marked; the commit removes exactly the first clip and its two files. -/
theorem delete_marked_clips_correct_witness :
    (let a : Clip := ⟨"am", "ar", 1, "a", false, true⟩
     let b : Clip := ⟨"bm", "br", 2, "b", false, false⟩
     let fs : Finset String := {"am", "ar", "bm", "br"}
     ∃ out, delete_marked_clips fs [a, b] = some out ∧
       (out.2 = [a, b].filter (fun c => !c.marked_for_del) ∧
        (∀ c ∈ out.2, c.marked_for_del = false) ∧
        (∀ c ∈ [a, b], c.marked_for_del = true →
          c.mov_file_path ∉ out.1 ∧ c.mts_file_path ∉ out.1) ∧
        out.1 ⊆ fs ∧
        (∀ p ∈ fs, (∀ c ∈ [a, b], c.marked_for_del = true →
          p ≠ c.mov_file_path ∧ p ≠ c.mts_file_path) → p ∈ out.1))) := by
  refine ⟨(({"am", "ar", "bm", "br"} : Finset String).erase "am" |>.erase "ar",
    [⟨"bm", "br", 2, "b", false, false⟩]), by decide, ?_⟩
  exact delete_marked_clips_correct _ _ _ _ (by decide)

/-- **C3.** The truncation rule is violated by the code: with 2 cells of
available width, the 4-character text `"abcd"` is turned into `"abc..."`,
which is 6 characters long — longer than the available width. The branch
condition `len(text) >= 3` tests the text length where the specified rule
("at least 3 characters remain available") concerns the width, and the
negative Python slice `text[:limit-3]` then keeps all but one character. -/
theorem trunc_text_overflow_bug :
    trunc_text 80 "abcd" 2 = "abc..." ∧
    ¬ (("abc..." : String).length ≤ 2) := by
  decide

theorem charsLe_total : ∀ a b : List Char, charsLe a b = true ∨ charsLe b a = true
  | [], _ => .inl rfl
  | _ :: _, [] => .inr rfl
  | a :: as, b :: bs => by
    rcases lt_trichotomy a b with h | h | h
    · left; simp [charsLe, h]
    · subst h
      rcases charsLe_total as bs with h' | h'
      · left; simp [charsLe, lt_irrefl, h']
      · right; simp [charsLe, lt_irrefl, h']
    · right; simp [charsLe, h]

theorem charsLe_trans : ∀ a b c : List Char,
    charsLe a b = true → charsLe b c = true → charsLe a c = true
  | [], _, _, _, _ => rfl
  | _ :: _, [], _, h, _ => by simp [charsLe] at h
  | _ :: _, _ :: _, [], _, h => by simp [charsLe] at h
  | a :: as, b :: bs, c :: cs, hab, hbc => by
    rcases lt_trichotomy a b with h1 | h1 | h1
    · rcases lt_trichotomy b c with h2 | h2 | h2
      · simp [charsLe, h1.trans h2]
      · subst h2; simp [charsLe, h1]
      · simp [charsLe, h2, asymm h2] at hbc
    · subst h1
      rcases lt_trichotomy a c with h2 | h2 | h2
      · simp [charsLe, h2]
      · subst h2
        simp only [charsLe, lt_irrefl, if_false] at hab hbc ⊢
        exact charsLe_trans as bs cs hab hbc
      · simp [charsLe, h2, asymm h2] at hbc
    · simp [charsLe, h1, asymm h1] at hab

theorem findClipsLoop_spec (mts_file_pathes : List String) (size : String → Nat)
    (movs : List String) :
    (findClipsLoop mts_file_pathes size movs).1.map (fun c => c.mov_file_path)
      = movs.filter (fun fp =>
          (mtsLookup mts_file_pathes (get_file_name_base fp MOV_FILE_ENDING)).isSome) ∧
    (findClipsLoop mts_file_pathes size movs).2
      = movs.filter (fun fp =>
          !(mtsLookup mts_file_pathes (get_file_name_base fp MOV_FILE_ENDING)).isSome) ∧
    (∀ c ∈ (findClipsLoop mts_file_pathes size movs).1,
      c.file_base_name = get_file_name_base c.mov_file_path MOV_FILE_ENDING ∧
      mtsLookup mts_file_pathes c.file_base_name = some c.mts_file_path) := by
  induction movs with
  | nil => exact ⟨rfl, rfl, by simp [findClipsLoop]⟩
  | cons mov_fp rest ih =>
    obtain ⟨ih1, ih2, ih3⟩ := ih
    cases hl : mtsLookup mts_file_pathes (get_file_name_base mov_fp MOV_FILE_ENDING) with
    | none =>
      refine ⟨?_, ?_, ?_⟩
      · simp [findClipsLoop, hl, List.filter_cons, ih1]
      · simp [findClipsLoop, hl, List.filter_cons, ih2]
      · intro c hc
        simp only [findClipsLoop, hl] at hc
        exact ih3 c hc
    | some mts_fp =>
      refine ⟨?_, ?_, ?_⟩
      · simp [findClipsLoop, hl, List.filter_cons, ih1, Clip.make]
      · simp [findClipsLoop, hl, List.filter_cons, ih2]
      · intro c hc
        simp only [findClipsLoop, hl, List.mem_cons] at hc
        rcases hc with hc | hc
        · subst hc
          exact ⟨rfl, by simpa [Clip.make] using hl⟩
        · exact ih3 c hc

/-- **C4 (amended).** Clip discovery produces exactly one `Clip` for each
preview (`.mov`) file whose file-name base also occurs as a raw (`.MTS`)
file: the clip list, projected to preview paths, is exactly the sorted list
of preview paths restricted to the matched ones (in particular sorted
lexicographically); a preview file with no raw counterpart yields no clip and
is reported as a mismatch; each produced clip pairs the preview file with a
raw file of the same base. -/
theorem find_clips_characterization (mts_dir_files mov_dir_files : List String)
    (size : String → Nat) :
    (find_clips mts_dir_files mov_dir_files size).1.map (fun c => c.mov_file_path)
      = (pySorted (find_file_pathes mov_dir_files MOV_FILE_ENDING)).filter
          (fun fp => (mtsLookup (find_file_pathes mts_dir_files MTS_FILE_ENDING)
            (get_file_name_base fp MOV_FILE_ENDING)).isSome) ∧
    (find_clips mts_dir_files mov_dir_files size).2
      = (pySorted (find_file_pathes mov_dir_files MOV_FILE_ENDING)).filter
          (fun fp => !(mtsLookup (find_file_pathes mts_dir_files MTS_FILE_ENDING)
            (get_file_name_base fp MOV_FILE_ENDING)).isSome) ∧
    List.Sorted (fun a b => strLe a b = true)
      ((find_clips mts_dir_files mov_dir_files size).1.map
        (fun c => c.mov_file_path)) ∧
    (∀ c ∈ (find_clips mts_dir_files mov_dir_files size).1,
      c.file_base_name = get_file_name_base c.mov_file_path MOV_FILE_ENDING ∧
      c.mts_file_path ∈ find_file_pathes mts_dir_files MTS_FILE_ENDING ∧
      get_file_name_base c.mts_file_path MTS_FILE_ENDING = c.file_base_name) := by
  haveI : IsTotal String (fun a b => strLe a b = true) :=
    ⟨fun a b => charsLe_total a.data b.data⟩
  haveI : IsTrans String (fun a b => strLe a b = true) :=
    ⟨fun a b c => charsLe_trans a.data b.data c.data⟩
  obtain ⟨h1, h2, h3⟩ := findClipsLoop_spec
    (find_file_pathes mts_dir_files MTS_FILE_ENDING) size
    (pySorted (find_file_pathes mov_dir_files MOV_FILE_ENDING))
  refine ⟨h1, h2, ?_, ?_⟩
  · rw [show (find_clips mts_dir_files mov_dir_files size).1.map
        (fun c => c.mov_file_path) = _ from h1]
    exact List.Pairwise.sublist (List.filter_sublist _)
      (List.sorted_insertionSort _ _)
  · intro c hc
    obtain ⟨hbase, hlook⟩ := h3 c hc
    have hfind := hlook
    unfold mtsLookup at hfind
    refine ⟨hbase, ?_, ?_⟩
    · have := List.mem_of_find?_eq_some hfind
      exact List.mem_reverse.mp this
    · have := List.find?_some hfind
      exact eq_of_beq this

/-- **C4 (counterexample).** Two preview files in different subdirectories
that share the base name `X`, together with one matching raw file, yield two
clips for the single common base name — not "exactly one Clip per stem". -/
theorem find_clips_stem_duplicate :
    ((find_clips ["X.MTS"] ["a/X.mov", "b/X.mov"] (fun _ => 0)).1.map
      (fun c => c.file_base_name) = ["X", "X"]) ∧
    (find_clips ["X.MTS"] ["a/X.mov", "b/X.mov"] (fun _ => 0)).1.length ≠ 1 := by
  decide

theorem step_input_normal (vc : VC) (h : vc.mode = Mode.normal)
    (b : String) (e : Bool) : step vc (.input b e) = normalHandle vc b e := by
  rcases vc with ⟨clips, fs, ro, ex, msg, cl, tl, rows, mo⟩
  cases mo with
  | normal => rfl
  | play => exact Mode.noConfusion h

theorem step_input_play (vc : VC) (h : vc.mode = Mode.play)
    (b : String) (e : Bool) : step vc (.input b e) = some (playHandle vc b) := by
  rcases vc with ⟨clips, fs, ro, ex, msg, cl, tl, rows, mo⟩
  cases mo with
  | normal => exact Mode.noConfusion h
  | play => rfl

theorem step_tick_normal (vc : VC) (h : vc.mode = Mode.normal)
    (ex : Bool) : step vc (.tick ex) = some vc := by
  rcases vc with ⟨clips, fs, ro, exi, msg, cl, tl, rows, mo⟩
  cases mo with
  | normal => rfl
  | play => exact Mode.noConfusion h

theorem step_tick_play (vc : VC) (h : vc.mode = Mode.play)
    (ex : Bool) : step vc (.tick ex) = some (playUpdate vc ex) := by
  rcases vc with ⟨clips, fs, ro, exi, msg, cl, tl, rows, mo⟩
  cases mo with
  | normal => exact Mode.noConfusion h
  | play => rfl

theorem normalHandle_w (vc : VC) : normalHandle vc ":w" true = save vc := rfl

theorem normalHandle_wq (vc : VC) :
    normalHandle vc ":wq" true = (save vc).map exit_no_save := rfl

theorem normalHandle_q (vc : VC) :
    normalHandle vc ":q" true = some (exit_no_save vc) := rfl

theorem normalHandle_qforce (vc : VC) :
    normalHandle vc ":q!" true = some (exit_no_save_forced vc) := rfl

theorem normalHandle_cq (vc : VC) :
    normalHandle vc ":cq" true = some (exit_no_save_forced vc) := rfl

theorem normalHandle_space (vc : VC) (ent : Bool) :
    normalHandle vc " " ent
      = (play_at_cursor_line vc).map (fun v => switch_mode v .play) := rfl

theorem normalHandle_d (vc : VC) (ent : Bool) :
    normalHandle vc "d" ent = toggle_del_at_cursor_line vc := rfl

theorem normalHandle_j (vc : VC) (ent : Bool) :
    normalHandle vc "j" ent = some (move_cursor_line vc 1) := rfl

theorem normalHandle_k (vc : VC) (ent : Bool) :
    normalHandle vc "k" ent = some (move_cursor_line vc (-1)) := rfl

theorem normalHandle_g (vc : VC) (ent : Bool) :
    normalHandle vc "g" ent = some (move_cursor_line_all_up vc) := rfl

theorem normalHandle_G (vc : VC) (ent : Bool) :
    normalHandle vc "G" ent = some (move_cursor_line_all_down vc) := rfl

theorem normalHandle_l (vc : VC) (ent : Bool) :
    normalHandle vc "l" ent = some (move_cursor_line vc (rows_editor vc - 1)) := rfl

theorem normalHandle_h (vc : VC) (ent : Bool) :
    normalHandle vc "h" ent
      = some (move_cursor_line vc (-(rows_editor vc - 1))) := rfl

/-- **C2.** In normal mode with at least one clip marked for deletion, the
completed command `:q` only sets the status message — clip list, filesystem
and exit flag are untouched — while `:q!` and `:cq` only set the exit flag,
deleting no file and removing no clip. -/
theorem quit_blocked_and_forced (vc : VC) (h0 : vc.mode = Mode.normal)
    (h1 : ∃ c ∈ vc.clips, c.marked_for_del = true) :
    step vc (.input ":q" true) = some { vc with
      msg := some "There are unsaved changes. Use :q! to force exit" } ∧
    step vc (.input ":q!" true) = some { vc with exit := true } ∧
    step vc (.input ":cq" true) = some { vc with exit := true } := by
  have hany : vc.clips.any (fun c => c.marked_for_del) = true :=
    List.any_eq_true.mpr (by simpa using h1)
  rw [step_input_normal vc h0, step_input_normal vc h0, step_input_normal vc h0,
    normalHandle_q, normalHandle_qforce, normalHandle_cq]
  unfold exit_no_save exit_no_save_forced
  rw [if_pos hany]
  exact ⟨rfl, rfl, rfl⟩

/-- Concrete instantiation of `quit_blocked_and_forced` on `vcSample`. -/
theorem quit_blocked_and_forced_witness :
    step vcSample (.input ":q" true) = some { vcSample with
      msg := some "There are unsaved changes. Use :q! to force exit" } ∧
    step vcSample (.input ":q!" true) = some { vcSample with exit := true } ∧
    step vcSample (.input ":cq" true) = some { vcSample with exit := true } :=
  quit_blocked_and_forced vcSample rfl (by decide)

/-- Setting an index of a list to the value already there is the identity. -/
theorem set_of_getElem? {α : Type} {l : List α} {n : Nat} {a : α}
    (h : l[n]? = some a) : l.set n a = l := by
  induction l generalizing n with
  | nil => simp at h
  | cons x xs ih =>
    cases n with
    | zero => simp at h; simp [List.set, h]
    | succ m =>
      simp only [List.getElem?_cons_succ] at h
      simp [List.set, ih h]

theorem pyIdx_lt {n : Nat} {i : Int} {j : Nat} (h : pyIdx n i = some j) :
    j < n := by
  unfold pyIdx at h
  split_ifs at h with h1 h2 h3 <;> simp only [Option.some.injEq] at h <;> omega

/-- **C7.** Toggling the deletion mark at the cursor twice restores the state
exactly (hence in particular the clip's original `marked_for_del` value):
in a read-only session each application is a no-op, in a writable session
each application flips the flag of the clip under the cursor. The hypothesis
rules out the crash on an out-of-range cursor in a writable session. -/
theorem toggle_del_twice (vc : VC)
    (h : vc.read_only = true ∨ (pyIdx vc.clips.length vc.cursor_line).isSome) :
    ∃ vc₁, toggle_del_at_cursor_line vc = some vc₁ ∧
      toggle_del_at_cursor_line vc₁ = some vc ∧
      (vc.read_only = true → vc₁ = vc) ∧
      (vc.read_only = false → ∀ j c, pyIdx vc.clips.length vc.cursor_line = some j →
        vc.clips[j]? = some c →
        vc₁.clips[j]? = some { c with marked_for_del := !c.marked_for_del }) := by
  by_cases hro : vc.read_only = true
  · refine ⟨vc, ?_, ?_, fun _ => rfl, fun hro' => absurd hro (by simp [hro'])⟩ <;>
      (unfold toggle_del_at_cursor_line; rw [if_pos hro])
  · have hro' : vc.read_only = false := by simpa using hro
    rcases h with h | h
    · exact absurd h hro
    · obtain ⟨j, hj⟩ := Option.isSome_iff_exists.mp h
      have hjlt : j < vc.clips.length := pyIdx_lt hj
      obtain ⟨c, hc⟩ : ∃ c, vc.clips[j]? = some c :=
        ⟨_, List.getElem?_eq_getElem hjlt⟩
      have hget : (vc.clips.set j { c with marked_for_del := !c.marked_for_del })[j]?
          = some { c with marked_for_del := !c.marked_for_del } := by
        rw [List.getElem?_set_self', hc]
        rfl
      refine ⟨{ vc with clips := vc.clips.set j
                          { c with marked_for_del := !c.marked_for_del } },
        ?_, ?_, ?_, ?_⟩
      · unfold toggle_del_at_cursor_line
        rw [if_neg (by simp [hro'])]
        simp only [hj, hc]
      · unfold toggle_del_at_cursor_line
        rw [if_neg (by simp [hro'])]
        simp only [List.length_set, hj, hget, Bool.not_not]
        rw [List.set_set, set_of_getElem? hc]
      · intro hro''
        exact absurd hro'' (by simp [hro'])
      · intro hro'' j' c' hj' hc'
        have hj'j : j' = j := by
          rw [hj] at hj'
          exact (Option.some.inj hj').symm
        subst hj'j
        have hcc : c' = c := by
          rw [hc] at hc'
          exact (Option.some.inj hc').symm
        subst hcc
        exact hget

/-- Concrete instantiation of `toggle_del_twice` on the writable sample
session (cursor on the marked clip `clipA`). -/
theorem toggle_del_twice_witness :
    ∃ vc₁, toggle_del_at_cursor_line vcSample = some vc₁ ∧
      toggle_del_at_cursor_line vc₁ = some vcSample ∧
      (vcSample.read_only = true → vc₁ = vcSample) ∧
      (vcSample.read_only = false → ∀ j c,
        pyIdx vcSample.clips.length vcSample.cursor_line = some j →
        vcSample.clips[j]? = some c →
        vc₁.clips[j]? = some { c with marked_for_del := !c.marked_for_del }) :=
  toggle_del_twice vcSample (Or.inr (by decide))

/-- **C8 (counterexample).** In the read-only sample session, pressing the
delete-mark key returns the state entirely unchanged — in particular the
status message stays `none`, so no operator feedback indicating a refusal is
produced, contrary to the claim. -/
theorem toggle_readonly_no_feedback :
    step vcSampleRO (.input "d" false) = some vcSampleRO ∧
    vcSampleRO.msg = none := by
  constructor
  · rfl
  · rfl

/-- **C8 (amended).** In a read-only session, pressing the delete-mark key in
normal mode is a silent no-op: every clip (in particular its
`marked_for_del` flag) and all other session state, including the status
message, are left unchanged; no feedback is produced. -/
theorem toggle_readonly_silent (vc : VC) (h0 : vc.mode = Mode.normal)
    (hro : vc.read_only = true) (ent : Bool) :
    step vc (.input "d" ent) = some vc := by
  rw [step_input_normal vc h0, normalHandle_d]
  unfold toggle_del_at_cursor_line
  rw [if_pos hro]

/-- Concrete instantiation of `toggle_readonly_silent` on `vcSampleRO`. -/
theorem toggle_readonly_silent_witness :
    step vcSampleRO (.input "d" true) = some vcSampleRO :=
  toggle_readonly_silent vcSampleRO rfl rfl true

/-- A successful commit keeps exactly the unmarked clips. -/
theorem delete_marked_clips_clips {fs fs' : Finset String}
    {clips clips' : List Clip}
    (h : delete_marked_clips fs clips = some (fs', clips')) :
    clips' = clips.filter (fun c => !c.marked_for_del) := by
  unfold delete_marked_clips at h
  have hc := deleteMarkedLoop_clips h
  rwa [foldl_erase_filter] at hc

/-- **C9.** For a writable normal-mode session whose commit succeeds:
if every clip was marked, `:w` sets the exit flag (the emptied list ends the
session); if at least one clip survives the commit, the exit flag stays
false (when it was false before). -/
theorem save_exit_on_empty (vc vc' : VC) (h0 : vc.mode = Mode.normal)
    (hro : vc.read_only = false)
    (h : step vc (.input ":w" true) = some vc') :
    ((∀ c ∈ vc.clips, c.marked_for_del = true) → vc'.exit = true) ∧
    ((vc.exit = false ∧ (∃ c ∈ vc.clips, c.marked_for_del = false)) →
      vc'.exit = false) := by
  rw [step_input_normal vc h0, normalHandle_w] at h
  unfold save at h
  rw [if_neg (by simp [hro])] at h
  cases hm : delete_marked_clips vc.fs vc.clips with
  | none => rw [hm] at h; cases h
  | some out =>
    rcases out with ⟨fs2, clips2⟩
    simp only [hm] at h
    have hv : vc' = reset_editor { vc with
        fs := fs2
        clips := clips2
        exit := if clips2.length = 0 then true else vc.exit } :=
      (Option.some.inj h).symm
    have hexit : vc'.exit = if clips2.length = 0 then true else vc.exit := by
      rw [hv]; rfl
    have hfilter : clips2 = vc.clips.filter (fun c => !c.marked_for_del) :=
      delete_marked_clips_clips hm
    constructor
    · intro hall
      have hnil : clips2 = [] := by
        rw [hfilter, List.filter_eq_nil_iff]
        intro c hc
        simp [hall c hc]
      rw [hexit, hnil]
      rfl
    · rintro ⟨hex, c, hc, hcm⟩
      have hmem : c ∈ clips2 := by
        rw [hfilter]
        exact List.mem_filter.mpr ⟨hc, by simp [hcm]⟩
      have hlen : clips2.length ≠ 0 := by
        intro h0'
        rw [List.length_eq_zero] at h0'
        rw [h0'] at hmem
        cases hmem
      rw [hexit, if_neg hlen, hex]

/-- Concrete instantiation of `save_exit_on_empty`: committing the fully
marked single-clip session sets the exit flag. -/
theorem save_exit_on_empty_witness :
    ((∀ c ∈ vcAllMarked.clips, c.marked_for_del = true) →
      vcAllMarkedSaved.exit = true) ∧
    ((vcAllMarked.exit = false ∧
      (∃ c ∈ vcAllMarked.clips, c.marked_for_del = false)) →
      vcAllMarkedSaved.exit = false) :=
  save_exit_on_empty vcAllMarked vcAllMarkedSaved rfl rfl (by decide)

theorem exit_no_save_mode (vc : VC) : (exit_no_save vc).mode = vc.mode := by
  unfold exit_no_save
  split <;> rfl

theorem save_mode {vc vc' : VC} (h : save vc = some vc') :
    vc'.mode = vc.mode := by
  unfold save at h
  split_ifs at h with hro
  · rw [← Option.some.inj h]
  · cases hm : delete_marked_clips vc.fs vc.clips with
    | none => simp only [hm] at h; cases h
    | some out =>
      simp only [hm] at h
      rw [← Option.some.inj h]
      rfl

theorem toggle_mode {vc vc' : VC}
    (h : toggle_del_at_cursor_line vc = some vc') : vc'.mode = vc.mode := by
  unfold toggle_del_at_cursor_line at h
  split_ifs at h with hro
  · rw [← Option.some.inj h]
  · cases h1 : pyIdx vc.clips.length vc.cursor_line with
    | none => simp only [h1] at h; cases h
    | some i =>
      simp only [h1] at h
      cases h2 : vc.clips[i]? with
      | none => simp only [h2] at h; cases h
      | some c =>
        simp only [h2] at h
        rw [← Option.some.inj h]

theorem normalHandle_mode {vc : VC} {b : String} {ent : Bool} {vc' : VC}
    (h : normalHandle vc b ent = some vc') :
    (b = " " ∧ vc'.mode = Mode.play) ∨ vc'.mode = vc.mode := by
  unfold normalHandle at h
  split_ifs at h with h1 h2 h3 h4 h5 h6 h7 h8 h9 h10 h11 h12 h13 h14
  · exact Or.inr (save_mode h)
  · obtain ⟨v, hv, hv'⟩ := Option.map_eq_some'.mp h
    refine Or.inr ?_
    rw [← hv', exit_no_save_mode]
    exact save_mode hv
  · refine Or.inr ?_
    rw [← Option.some.inj h, exit_no_save_mode]
  · exact Or.inr (by rw [← Option.some.inj h]; rfl)
  · exact Or.inr (by rw [← Option.some.inj h]; rfl)
  · exact Or.inr (by rw [← Option.some.inj h])
  · exact Or.inr (by rw [← Option.some.inj h]; rfl)
  · exact Or.inr (by rw [← Option.some.inj h]; rfl)
  · exact Or.inr (by rw [← Option.some.inj h]; rfl)
  · exact Or.inr (by rw [← Option.some.inj h]; rfl)
  · exact Or.inr (by rw [← Option.some.inj h]; rfl)
  · exact Or.inr (by rw [← Option.some.inj h]; rfl)
  · obtain ⟨v, hv, hv'⟩ := Option.map_eq_some'.mp h
    refine Or.inl ⟨eq_of_beq h13, ?_⟩
    rw [← hv']
    rfl
  · exact Or.inr (toggle_mode h)
  · exact Or.inr (by rw [← Option.some.inj h])

/-- **C5.** The mode-transition relation of a dispatch contains only:
Normal to Play on a space input in normal mode, and Play to Normal on a
space input in play mode or on an idle tick that observes the exited player
process; and those transitions do occur. (The mode type has only the two
constructors `normal` and `play`, so no other mode ever occurs.) -/
theorem mode_transitions (vc : VC) (e : Event) (vc' : VC)
    (h : step vc e = some vc') :
    (vc'.mode = vc.mode ∨
      (vc.mode = Mode.normal ∧ vc'.mode = Mode.play ∧
        ∃ ent, e = .input " " ent) ∨
      (vc.mode = Mode.play ∧ vc'.mode = Mode.normal ∧
        ((∃ ent, e = .input " " ent) ∨ e = .tick true))) ∧
    (vc.mode = Mode.play → ((∃ ent, e = .input " " ent) ∨ e = .tick true) →
      vc'.mode = Mode.normal) ∧
    (vc.mode = Mode.normal → (∃ ent, e = .input " " ent) →
      vc'.mode = Mode.play) := by
  cases hmo : vc.mode with
  | normal =>
    refine ⟨?_, fun hp => absurd hp (by simp), ?_⟩
    · cases e with
      | tick ex =>
        rw [step_tick_normal vc hmo] at h
        refine Or.inl ?_
        rw [← Option.some.inj h]
        exact hmo
      | input b ent' =>
        rw [step_input_normal vc hmo] at h
        rcases normalHandle_mode h with ⟨hb, hpm⟩ | hpm
        · subst hb
          exact Or.inr (Or.inl ⟨rfl, hpm, ent', rfl⟩)
        · exact Or.inl (hpm.trans hmo)
    · rintro - ⟨ent2, he⟩
      subst he
      rw [step_input_normal vc hmo, normalHandle_space] at h
      obtain ⟨v, hv, hv'⟩ := Option.map_eq_some'.mp h
      rw [← hv']
      rfl
  | play =>
    refine ⟨?_, ?_, fun hn => absurd hn (by simp)⟩
    · cases e with
      | tick ex =>
        rw [step_tick_play vc hmo] at h
        cases ex with
        | true =>
          refine Or.inr (Or.inr ⟨rfl, ?_, Or.inr rfl⟩)
          rw [← Option.some.inj h]
          rfl
        | false =>
          refine Or.inl ?_
          rw [← Option.some.inj h]
          unfold playUpdate
          rw [if_neg (by simp)]
          exact hmo
      | input b ent' =>
        rw [step_input_play vc hmo] at h
        by_cases hb : b = " "
        · subst hb
          refine Or.inr (Or.inr ⟨rfl, ?_, Or.inl ⟨ent', rfl⟩⟩)
          rw [← Option.some.inj h]
          rfl
        · refine Or.inl ?_
          rw [← Option.some.inj h]
          unfold playHandle
          rw [if_neg (by simp [hb])]
          exact hmo
    · intro hp hor
      rcases hor with ⟨ent2, he⟩ | he
      · subst he
        rw [step_input_play vc hmo] at h
        rw [← Option.some.inj h]
        rfl
      · subst he
        rw [step_tick_play vc hmo] at h
        rw [← Option.some.inj h]
        rfl

/-- Concrete instantiation of `mode_transitions`: a space input in the
normal-mode sample session switches to play mode. -/
theorem mode_transitions_witness :
    (vcSamplePlayed.mode = vcSample.mode ∨
      (vcSample.mode = Mode.normal ∧ vcSamplePlayed.mode = Mode.play ∧
        ∃ ent, (Event.input " " false) = Event.input " " ent) ∨
      (vcSample.mode = Mode.play ∧ vcSamplePlayed.mode = Mode.normal ∧
        ((∃ ent, (Event.input " " false) = Event.input " " ent) ∨
          (Event.input " " false) = Event.tick true))) ∧
    (vcSample.mode = Mode.play →
      ((∃ ent, (Event.input " " false) = Event.input " " ent) ∨
        (Event.input " " false) = Event.tick true) →
      vcSamplePlayed.mode = Mode.normal) ∧
    (vcSample.mode = Mode.normal →
      (∃ ent, (Event.input " " false) = Event.input " " ent) →
      vcSamplePlayed.mode = Mode.play) :=
  mode_transitions vcSample (Event.input " " false) vcSamplePlayed (by decide)

theorem save_ro {vc : VC} (hro : vc.read_only = true) : save vc = some vc := by
  unfold save
  rw [if_pos hro]

theorem toggle_ro {vc : VC} (hro : vc.read_only = true) :
    toggle_del_at_cursor_line vc = some vc := by
  unfold toggle_del_at_cursor_line
  rw [if_pos hro]

theorem exit_no_save_fields (vc : VC) :
    (exit_no_save vc).read_only = vc.read_only ∧
    (exit_no_save vc).fs = vc.fs ∧
    (exit_no_save vc).clips = vc.clips := by
  unfold exit_no_save
  split <;> exact ⟨rfl, rfl, rfl⟩

theorem play_at_fields {vc vc' : VC} (h : play_at_cursor_line vc = some vc') :
    vc'.read_only = vc.read_only ∧ vc'.fs = vc.fs ∧
    vc'.clips.map stripPlayed = vc.clips.map stripPlayed := by
  unfold play_at_cursor_line at h
  cases h1 : pyIdx vc.clips.length vc.cursor_line with
  | none => simp only [h1] at h; cases h
  | some i =>
    simp only [h1] at h
    cases h2 : vc.clips[i]? with
    | none => simp only [h2] at h; cases h
    | some c =>
      simp only [h2] at h
      rw [← Option.some.inj h]
      refine ⟨rfl, rfl, ?_⟩
      show (vc.clips.set i { c with played := true }).map stripPlayed
        = vc.clips.map stripPlayed
      rw [List.map_set]
      have hs : stripPlayed { c with played := true } = stripPlayed c := rfl
      rw [hs]
      have hget : (vc.clips.map stripPlayed)[i]? = some (stripPlayed c) := by
        rw [List.getElem?_map, h2]
        rfl
      exact set_of_getElem? hget

/-- One read-only dispatch never touches the filesystem, the set of clips or
any clip field other than `played`. -/
theorem step_ro {vc vc' : VC} {e : Event} (hro : vc.read_only = true)
    (h : step vc e = some vc') :
    vc'.read_only = true ∧ vc'.fs = vc.fs ∧
    vc'.clips.map stripPlayed = vc.clips.map stripPlayed := by
  cases hmo : vc.mode with
  | play =>
    cases e with
    | input b ent =>
      rw [step_input_play vc hmo] at h
      rw [← Option.some.inj h]
      unfold playHandle
      split <;> exact ⟨hro, rfl, rfl⟩
    | tick ex =>
      rw [step_tick_play vc hmo] at h
      rw [← Option.some.inj h]
      unfold playUpdate
      split <;> exact ⟨hro, rfl, rfl⟩
  | normal =>
    cases e with
    | tick ex =>
      rw [step_tick_normal vc hmo] at h
      rw [← Option.some.inj h]
      exact ⟨hro, rfl, rfl⟩
    | input b ent =>
      rw [step_input_normal vc hmo] at h
      unfold normalHandle at h
      split_ifs at h with h1 h2 h3 h4 h5 h6 h7 h8 h9 h10 h11 h12 h13 h14
      · rw [save_ro hro] at h
        rw [← Option.some.inj h]
        exact ⟨hro, rfl, rfl⟩
      · rw [save_ro hro] at h
        simp only [Option.map_some'] at h
        rw [← Option.some.inj h]
        obtain ⟨hr, hf, hc⟩ := exit_no_save_fields vc
        exact ⟨hr.trans hro, hf, by rw [hc]⟩
      · rw [← Option.some.inj h]
        obtain ⟨hr, hf, hc⟩ := exit_no_save_fields vc
        exact ⟨hr.trans hro, hf, by rw [hc]⟩
      · rw [← Option.some.inj h]
        exact ⟨hro, rfl, rfl⟩
      · rw [← Option.some.inj h]
        exact ⟨hro, rfl, rfl⟩
      · rw [← Option.some.inj h]
        exact ⟨hro, rfl, rfl⟩
      · rw [← Option.some.inj h]
        exact ⟨hro, rfl, rfl⟩
      · rw [← Option.some.inj h]
        exact ⟨hro, rfl, rfl⟩
      · rw [← Option.some.inj h]
        exact ⟨hro, rfl, rfl⟩
      · rw [← Option.some.inj h]
        exact ⟨hro, rfl, rfl⟩
      · rw [← Option.some.inj h]
        exact ⟨hro, rfl, rfl⟩
      · rw [← Option.some.inj h]
        exact ⟨hro, rfl, rfl⟩
      · obtain ⟨v, hv, hv'⟩ := Option.map_eq_some'.mp h
        obtain ⟨hr, hf, hc⟩ := play_at_fields hv
        rw [← hv']
        exact ⟨hr.trans hro, hf, hc⟩
      · rw [toggle_ro hro] at h
        rw [← Option.some.inj h]
        exact ⟨hro, rfl, rfl⟩
      · rw [← Option.some.inj h]
        exact ⟨hro, rfl, rfl⟩

/-- **C10.** In a read-only session, no finite sequence of input and tick
events can mark a clip for deletion or delete a file: the filesystem and the
clip list (up to the `played` flags) are invariant, and the session stays
read-only. -/
theorem read_only_invariant (vc vc' : VC) (es : List Event)
    (hro : vc.read_only = true) (h : steps vc es = some vc') :
    vc'.fs = vc.fs ∧
    vc'.clips.map stripPlayed = vc.clips.map stripPlayed ∧
    vc'.read_only = true := by
  induction es generalizing vc with
  | nil =>
    rw [← Option.some.inj h]
    exact ⟨rfl, rfl, hro⟩
  | cons e rest ih =>
    unfold steps at h
    cases h1 : step vc e with
    | none => simp only [h1] at h; cases h
    | some vcm =>
      simp only [h1] at h
      obtain ⟨hro1, hfs1, hcl1⟩ := step_ro hro h1
      obtain ⟨hfs2, hcl2, hro2⟩ := ih vcm hro1 h
      exact ⟨hfs2.trans hfs1, hcl2.trans hcl1, hro2⟩

/-- Concrete instantiation of `read_only_invariant`: a read-only session that
tries to mark a clip, plays a clip, sees the player exit and moves the
cursor. -/
theorem read_only_invariant_witness :
    vcROQuiet.fs = vcSampleRO.fs ∧
    vcROQuiet.clips.map stripPlayed = vcSampleRO.clips.map stripPlayed ∧
    vcROQuiet.read_only = true :=
  read_only_invariant vcSampleRO vcROQuiet
    [.input "d" false, .input " " false, .tick true, .input "j" false]
    rfl (by decide)

theorem move_cursor_line_nav (vc : VC) (inc : Int)
    (hN : 1 ≤ vc.clips.length) (hvr : 3 ≤ vc.rows) (hinv : navInv vc) :
    navInv (move_cursor_line vc inc) ∧
    minimalAdjust (rows_editor vc) vc.top_v_line (move_cursor_line vc inc) := by
  obtain ⟨i1, i2, i3, i4, i5, i6⟩ := hinv
  unfold navInv minimalAdjust validTop move_cursor_line rows_editor at *
  simp only at *
  split_ifs <;>
    refine ⟨⟨by omega, by omega, by omega, by omega, by omega, by omega⟩,
      ⟨by omega, by omega, by omega⟩,
      fun ht => by omega, fun ht t htv => by omega, fun ht t htv => by omega⟩

theorem move_all_up_nav (vc : VC)
    (hN : 1 ≤ vc.clips.length) (hvr : 3 ≤ vc.rows) (hinv : navInv vc) :
    navInv (move_cursor_line_all_up vc) ∧
    minimalAdjust (rows_editor vc) vc.top_v_line
      (move_cursor_line_all_up vc) := by
  obtain ⟨i1, i2, i3, i4, i5, i6⟩ := hinv
  unfold navInv minimalAdjust validTop move_cursor_line_all_up rows_editor at *
  simp only at *
  refine ⟨⟨by omega, by omega, by omega, by omega, by omega, by omega⟩,
    ⟨by omega, by omega, by omega⟩,
    fun ht => by omega, fun ht t htv => by omega, fun ht t htv => by omega⟩

theorem move_all_down_nav (vc : VC)
    (hN : 1 ≤ vc.clips.length) (hvr : 3 ≤ vc.rows) (hinv : navInv vc) :
    navInv (move_cursor_line_all_down vc) ∧
    minimalAdjust (rows_editor vc) vc.top_v_line
      (move_cursor_line_all_down vc) := by
  obtain ⟨i1, i2, i3, i4, i5, i6⟩ := hinv
  unfold navInv minimalAdjust validTop move_cursor_line_all_down rows_editor at *
  simp only at *
  refine ⟨⟨by omega, by omega, by omega, by omega, by omega, by omega⟩,
    ⟨by omega, by omega, by omega⟩,
    fun ht => by omega, fun ht t htv => by omega, fun ht t htv => by omega⟩

theorem applyMoveKey_nav (vc : VC) (m : String) (hm : m ∈ moveKeys)
    (hN : 1 ≤ vc.clips.length) (hvr : 3 ≤ vc.rows) (hinv : navInv vc) :
    navInv (applyMoveKey vc m) ∧
    minimalAdjust (rows_editor vc) vc.top_v_line (applyMoveKey vc m) ∧
    (applyMoveKey vc m).clips = vc.clips ∧
    (applyMoveKey vc m).rows = vc.rows ∧
    (applyMoveKey vc m).mode = vc.mode := by
  simp only [moveKeys, List.mem_cons, List.not_mem_nil, or_false] at hm
  rcases hm with rfl | rfl | rfl | rfl | rfl | rfl
  · obtain ⟨h1, h2⟩ := move_cursor_line_nav vc 1 hN hvr hinv
    exact ⟨h1, h2, rfl, rfl, rfl⟩
  · obtain ⟨h1, h2⟩ := move_cursor_line_nav vc (-1) hN hvr hinv
    exact ⟨h1, h2, rfl, rfl, rfl⟩
  · obtain ⟨h1, h2⟩ := move_all_up_nav vc hN hvr hinv
    exact ⟨h1, h2, rfl, rfl, rfl⟩
  · obtain ⟨h1, h2⟩ := move_all_down_nav vc hN hvr hinv
    exact ⟨h1, h2, rfl, rfl, rfl⟩
  · obtain ⟨h1, h2⟩ := move_cursor_line_nav vc (rows_editor vc - 1) hN hvr hinv
    exact ⟨h1, h2, rfl, rfl, rfl⟩
  · obtain ⟨h1, h2⟩ :=
      move_cursor_line_nav vc (-(rows_editor vc - 1)) hN hvr hinv
    exact ⟨h1, h2, rfl, rfl, rfl⟩

theorem step_moveKey (vc : VC) (h0 : vc.mode = Mode.normal) (m : String)
    (hm : m ∈ moveKeys) :
    step vc (.input m false) = some (applyMoveKey vc m) := by
  simp only [moveKeys, List.mem_cons, List.not_mem_nil, or_false] at hm
  rcases hm with rfl | rfl | rfl | rfl | rfl | rfl <;>
    exact (step_input_normal vc h0 _ false).trans rfl

theorem moveSeq_nav (ms : List String) : ∀ vc : VC, vc.mode = Mode.normal →
    1 ≤ vc.clips.length → 3 ≤ vc.rows → navInv vc →
    (∀ m ∈ ms, m ∈ moveKeys) →
    ∃ vc', steps vc (ms.map (fun m => Event.input m false)) = some vc' ∧
      navInv vc' ∧ vc'.mode = Mode.normal ∧ vc'.clips = vc.clips ∧
      vc'.rows = vc.rows := by
  induction ms with
  | nil =>
    intro vc h0 hN hvr hinv _
    exact ⟨vc, rfl, hinv, h0, rfl, rfl⟩
  | cons m rest ih =>
    intro vc h0 hN hvr hinv hms
    have hm := hms m (by simp)
    have hstep := step_moveKey vc h0 m hm
    obtain ⟨hnav, hmin, hclips, hrows, hmode⟩ :=
      applyMoveKey_nav vc m hm hN hvr hinv
    obtain ⟨vc', hsteps, hnav', hmode', hclips', hrows'⟩ :=
      ih (applyMoveKey vc m) (hmode.trans h0) (hclips ▸ hN) (hrows ▸ hvr)
        hnav (fun m' hm' => hms m' (by simp [hm']))
    refine ⟨vc', ?_, hnav', hmode', hclips'.trans hclips, hrows'.trans hrows⟩
    show steps vc (Event.input m false :: rest.map (fun m => Event.input m false))
      = some vc'
    unfold steps
    simp only [hstep]
    exact hsteps

/-- **C6.** For a non-empty clip list, starting from any state satisfying the
cursor/viewport invariant (as the initial state does), every single cursor
move keeps the cursor inside `[0, N-1]`, keeps the cursor visible
(`top ≤ cursor ≤ top + visibleRows - 1`) and adjusts the top line minimally,
and every finite sequence of cursor moves preserves the invariant. -/
theorem cursor_viewport_invariant (vc : VC) (h0 : vc.mode = Mode.normal)
    (hN : 1 ≤ vc.clips.length) (hvr : 3 ≤ vc.rows) (hinv : navInv vc) :
    (∀ m ∈ moveKeys, ∃ vc', step vc (.input m false) = some vc' ∧
      navInv vc' ∧ minimalAdjust (rows_editor vc) vc.top_v_line vc') ∧
    (∀ ms : List String, (∀ m ∈ ms, m ∈ moveKeys) →
      ∃ vc', steps vc (ms.map (fun m => Event.input m false)) = some vc' ∧
        navInv vc') := by
  constructor
  · intro m hm
    obtain ⟨hnav, hmin, _, _, _⟩ := applyMoveKey_nav vc m hm hN hvr hinv
    exact ⟨applyMoveKey vc m, step_moveKey vc h0 m hm, hnav, hmin⟩
  · intro ms hms
    obtain ⟨vc', h1, h2, _, _, _⟩ := moveSeq_nav ms vc h0 hN hvr hinv hms
    exact ⟨vc', h1, h2⟩

/-- Concrete instantiation of `cursor_viewport_invariant` on the sample
session. -/
theorem cursor_viewport_invariant_witness :
    (∀ m ∈ moveKeys, ∃ vc', step vcSample (.input m false) = some vc' ∧
      navInv vc' ∧ minimalAdjust (rows_editor vcSample) vcSample.top_v_line vc') ∧
    (∀ ms : List String, (∀ m ∈ ms, m ∈ moveKeys) →
      ∃ vc', steps vcSample (ms.map (fun m => Event.input m false)) = some vc' ∧
        navInv vc') :=
  cursor_viewport_invariant vcSample rfl (by decide) (by decide)
    (by constructor <;> simp [vcSample, rows_editor])

end Review
